import Mathlib

/-!
Verification of the division-hierarchy service (`app/services/division.py`)
of the `axiom_next` repository.

The service is embedded shallowly: the database is a `Store` (a list of
committed rows plus the next value of the id sequence), each service method
becomes a Lean function translated statement by statement from the Python
source, and every business exception becomes a constructor of `Err`.

Embedding conventions
* SQLAlchemy reads become pure functions over the row list; `first()` is the
  first list element matching the query predicate, and `ORDER BY` is a stable
  merge sort, so rows tie-break in insertion order.
* A mutation of an ORM object followed by `commit()` becomes `write_row`,
  which stores the mutated object at every row sharing its primary key
  (exactly one row in a real database).  Because the session autoflushes,
  a query issued after an uncommitted attribute assignment already sees the
  new value; `move_division` therefore computes the next sort order against
  the store that already contains the parent change, as the source does.
* `commit()` itself is the identity on the threaded store: no code path in
  the source writes before its validation raises, which is precisely what
  the atomicity theorem below checks.
* Python truthiness tests (`if division_data.parent_id:`, `while current_id:`,
  `if update_data.code`) are translated literally, including their treatment
  of `0` and the empty string as false.
* The two walks that can diverge on corrupted data (`_would_create_cycle`
  and `_get_subtree`) take explicit fuel; running out of fuel is mapped to
  the distinguished error `Err.diverge`, standing for the nontermination of
  the Python original.
-/

set_option maxHeartbeats 1000000

namespace AxiomNext

/-! ## Data model and service operations, translated from the source -/

/-- A committed row of the `divisions` table (`app/models/division.py`,
fields inherited from `DivisionBaseModel` in `app/models/base.py`). -/
structure Division where
  id : Int
  code : String
  name : String
  short_name : Option String := none
  parent_id : Option Int := none
  sort_order : Int := 0
  is_internal : Bool := false
  is_deleted : Bool := false
deriving Repr, DecidableEq

/-- The database: committed rows plus the state of the id sequence. -/
structure Store where
  rows : List Division
  nextId : Int
deriving Repr, DecidableEq

/-- Input schema `DivisionCreate` (`app/schemas/division.py`). -/
structure DivisionCreate where
  code : String
  name : String
  short_name : Option String := none
  parent_id : Option Int := none
  sort_order : Option Int := some 0
  is_internal : Bool := false
deriving Repr, DecidableEq

/-- Input schema `DivisionUpdate` (`app/schemas/division.py`), with pydantic's
set/unset distinction made explicit: an outer `none` means the field was not
supplied, so `model_dump(exclude_unset=True)` omits it.  For the two fields
whose column is nullable (`short_name`, `parent_id`) the inner value is again
an `Option`, since the caller may explicitly set them to null. -/
structure DivisionUpdate where
  code : Option String := none
  name : Option String := none
  short_name : Option (Option String) := none
  parent_id : Option (Option Int) := none
  sort_order : Option Int := none
  is_internal : Option Bool := none
  is_deleted : Option Bool := none
deriving Repr, DecidableEq

/-- The business exceptions of the service, plus `diverge` marking a walk of
the Python source that would not terminate. -/
inductive Err where
  | notFound (id : Int)
  | codeExists (code : String)
  | parentNotFound (id : Int)
  | circularReference
  | selfParent
  | hasChildren (n : Nat)
  | notDeleted (id : Int)
  | diverge
deriving Repr, DecidableEq

/-- Method `DivisionService.get_by_id`: first row with the given id, filtered to
non-deleted rows unless `include_deleted`. -/
def get_by_id (s : Store) (division_id : Int) (include_deleted : Bool := false) :
    Option Division :=
  s.rows.find? fun d => d.id == division_id && (include_deleted || !d.is_deleted)

/-- Method `DivisionService.get_by_code`: first row with exactly the given code
(SQL `=`, case-sensitive), filtered to non-deleted rows unless
`include_deleted`. -/
def get_by_code (s : Store) (code : String) (include_deleted : Bool := false) :
    Option Division :=
  s.rows.find? fun d => d.code == code && (include_deleted || !d.is_deleted)

/-- Insert `a` after every element strictly below it: the insertion step of a
stable insertion sort (ties keep their original relative order, modeling a SQL
`ORDER BY` that returns tied rows in insertion order). -/
def stableInsert (lt : α → α → Bool) (a : α) : List α → List α
  | [] => [a]
  | b :: bs => if lt b a then b :: stableInsert lt a bs else a :: b :: bs

/-- Stable insertion sort with respect to the strict order `lt`. -/
def stableSort (lt : α → α → Bool) : List α → List α
  | [] => []
  | a :: as => stableInsert lt a (stableSort lt as)

/-- The strict sibling ordering behind `ORDER BY sort_order, name`. -/
def sibLT (a b : Division) : Bool :=
  decide (a.sort_order < b.sort_order) ||
    (a.sort_order == b.sort_order && decide (a.name < b.name))

/-- Method `DivisionService.get_children`: rows whose `parent_id` equals the given
one (SQLAlchemy renders `== None` as `IS NULL`), ordered by
`(sort_order, name)`. -/
def get_children (s : Store) (parent_id : Option Int) (include_deleted : Bool := false) :
    List Division :=
  stableSort sibLT (s.rows.filter fun d =>
    d.parent_id == parent_id && (include_deleted || !d.is_deleted))

/-- Helper `DivisionService._get_next_sort_order`: the maximum `sort_order` among all
rows (deleted ones included) sharing `parent_id`, then `(max_order or 0) + 10`
with Python truthiness, so a missing maximum and a maximum of `0` both give
`10`. -/
def get_next_sort_order (s : Store) (parent_id : Option Int) : Int :=
  let max_order := ((s.rows.filter fun d => d.parent_id == parent_id).map
    (·.sort_order)).max?
  (match max_order with
   | none => 0
   | some m => if m == 0 then 0 else m) + 10

/-- The loop of `DivisionService._would_create_cycle`: follow `parent_id`
links upward from `current`, through non-deleted lookups, until the current
id is falsy (`None` or `0`), equals `division_id` (cycle), or a lookup fails.
`none` means the fuel ran out, i.e. the Python loop diverges. -/
def cycle_walk (s : Store) (division_id : Int) : Nat → Option Int → Option Bool
  | _, none => some false
  | fuel, some c =>
    if c == 0 then some false
    else if c == division_id then some true
    else
      match fuel with
      | 0 => none
      | Nat.succ f => cycle_walk s division_id f ((get_by_id s c).bind (·.parent_id))

/-- Helper `DivisionService._would_create_cycle`, with fuel large enough for every
terminating walk (a terminating walk never revisits an id). -/
def would_create_cycle (s : Store) (division_id potential_parent_id : Int) :
    Option Bool :=
  cycle_walk s division_id (s.rows.length + 2) (some potential_parent_id)

mutual
/-- Helper `DivisionService._get_subtree`: the division (non-deleted lookup) followed
by the recursively flattened subtrees of its non-deleted children.  `none`
means the recursion exceeded the fuel, i.e. the Python recursion diverges
(or overflows the interpreter stack). -/
def get_subtree (s : Store) : Nat → Int → Option (List Division)
  | 0, _ => none
  | Nat.succ fuel, root_id =>
    match get_by_id s root_id with
    | none => some []
    | some d =>
      match subtree_children s fuel (get_children s (some root_id)) with
      | none => none
      | some rest => some (d :: rest)
termination_by fuel _ => (fuel, 0)

/-- The `for child in children: result.extend(...)` loop of `_get_subtree`. -/
def subtree_children (s : Store) : Nat → List Division → Option (List Division)
  | _, [] => some []
  | fuel, c :: cs =>
    match get_subtree s fuel c.id with
    | none => none
    | some l =>
      match subtree_children s fuel cs with
      | none => none
      | some rest => some (l ++ rest)
termination_by fuel cs => (fuel, cs.length + 1)
end

/-- The rootless branch of `get_hierarchy_tree`: all non-deleted rows with
`parent_id IS NULL`, ordered by `sort_order` alone. -/
def roots_listing (s : Store) : List Division :=
  stableSort (fun a b => decide (a.sort_order < b.sort_order))
    (s.rows.filter fun d => d.parent_id == none && !d.is_deleted)

/-- Method `DivisionService.get_hierarchy_tree`.  Note the Python truthiness test
`if root_id:`: a root id of `0` takes the rootless branch. -/
def get_hierarchy_tree (s : Store) (root_id : Option Int) : Option (List Division) :=
  match root_id with
  | some r =>
    if r == 0 then some (roots_listing s)
    else get_subtree s (s.rows.length + 1) r
  | none => some (roots_listing s)

/-- Committing the mutated ORM object `d`: the row with its primary key takes
its field values; every other row is untouched. -/
def write_row (s : Store) (d : Division) : Store :=
  ⟨s.rows.map fun r => if r.id == d.id then d else r, s.nextId⟩

/-- The tail of `DivisionService.create` after validation: auto-assign
`sort_order` when it was omitted or `0`, then insert with a fresh id. -/
def create_insert (s : Store) (x : DivisionCreate) : Except Err Division × Store :=
  let so :=
    match x.sort_order with
    | none => get_next_sort_order s x.parent_id
    | some v => if v == 0 then get_next_sort_order s x.parent_id else v
  let d : Division :=
    { id := s.nextId, code := x.code, name := x.name, short_name := x.short_name,
      parent_id := x.parent_id, sort_order := so, is_internal := x.is_internal,
      is_deleted := false }
  (.ok d, ⟨s.rows ++ [d], s.nextId + 1⟩)

/-- Method `DivisionService.create`.  The code-uniqueness lookup passes
`include_deleted=True`; the parent check runs only when `parent_id` is truthy
(set and nonzero) and uses a non-deleted lookup. -/
def create (s : Store) (x : DivisionCreate) : Except Err Division × Store :=
  match get_by_code s x.code true with
  | some _ => (.error (.codeExists x.code), s)
  | none =>
    match x.parent_id with
    | some p =>
      if p == 0 then create_insert s x
      else
        match get_by_id s p with
        | none => (.error (.parentNotFound p), s)
        | some _ => create_insert s x
    | none => create_insert s x

/-- The code-uniqueness check of `DivisionService.update`: run only when the
patch's code is truthy (set and nonempty) and differs from the current code;
the lookup passes `include_deleted=True`. -/
def update_code_check (s : Store) (d : Division) (uc : Option String) : Option Err :=
  match uc with
  | some c =>
    if c != "" && c != d.code then
      match get_by_code s c true with
      | some _ => some (.codeExists c)
      | none => none
    else none
  | none => none

/-- The parent checks of `DivisionService.update`: run only when the patch
sets `parent_id` to a non-null value; a value of `0` ("root level") skips the
existence and cycle checks entirely. -/
def update_parent_check (s : Store) (division_id : Int) (up : Option (Option Int)) :
    Option Err :=
  match up with
  | some (some p) =>
    if p == division_id then some .selfParent
    else if p != 0 then
      match get_by_id s p with
      | none => some (.parentNotFound p)
      | some _ =>
        match would_create_cycle s division_id p with
        | some true => some .circularReference
        | some false => none
        | none => some .diverge
    else none
  | some none => none
  | none => none

/-- The `model_dump(exclude_unset=True)` call followed by the `setattr` loop: every
supplied field overwrites the current one. -/
def apply_update (u : DivisionUpdate) (d : Division) : Division :=
  { d with
    code := u.code.getD d.code
    name := u.name.getD d.name
    short_name := u.short_name.getD d.short_name
    parent_id := u.parent_id.getD d.parent_id
    sort_order := u.sort_order.getD d.sort_order
    is_internal := u.is_internal.getD d.is_internal
    is_deleted := u.is_deleted.getD d.is_deleted }

/-- Method `DivisionService.update`.  The initial lookup is non-deleted. -/
def update (s : Store) (division_id : Int) (u : DivisionUpdate) :
    Except Err Division × Store :=
  match get_by_id s division_id with
  | none => (.error (.notFound division_id), s)
  | some d =>
    match update_code_check s d u.code with
    | some e => (.error e, s)
    | none =>
      match update_parent_check s division_id u.parent_id with
      | some e => (.error e, s)
      | none =>
        let d' := apply_update u d
        (.ok d', write_row s d')

/-- Method `DivisionService.delete`: refuse while any non-deleted child exists; then
either flip `is_deleted` (soft) or remove the row (hard). -/
def delete (s : Store) (division_id : Int) (soft_delete : Bool := true) :
    Except Err Bool × Store :=
  match get_by_id s division_id with
  | none => (.error (.notFound division_id), s)
  | some d =>
    let children := get_children s (some division_id)
    if children.isEmpty then
      if soft_delete then (.ok true, write_row s { d with is_deleted := true })
      else (.ok true, ⟨s.rows.filter fun r => r.id != d.id, s.nextId⟩)
    else (.error (.hasChildren children.length), s)

/-- Helper `DivisionService._reorder_siblings`: the non-deleted children of the group,
in `(sort_order, name)` order, receive `(index + 1) * 10` and are committed. -/
def reorder_siblings (s : Store) (parent_id : Option Int) : Store :=
  (get_children s parent_id).enum.foldl
    (fun acc pr => write_row acc { pr.2 with sort_order := ((pr.1 : Int) + 1) * 10 }) s

/-- The validation prefix of `DivisionService.move_division`: with a truthy
`new_parent_id` (set and nonzero), reject self-parenting and cycles — but
never check that the new parent exists. -/
def move_validate (s : Store) (division_id : Int) (new_parent_id : Option Int) :
    Option Err :=
  match new_parent_id with
  | some p =>
    if p == 0 then none
    else if p == division_id then some .selfParent
    else
      match would_create_cycle s division_id p with
      | some true => some .circularReference
      | some false => none
      | none => some .diverge
  | none => none

/-- Method `DivisionService.move_division`: set the new parent, assign the explicit
sort order or the next one in the new group (computed after the parent change
is flushed), commit, then renumber the old group iff the parent changed. -/
def move_division (s : Store) (division_id : Int) (new_parent_id : Option Int)
    (new_sort_order : Option Int := none) : Except Err Division × Store :=
  match get_by_id s division_id with
  | none => (.error (.notFound division_id), s)
  | some d =>
    match move_validate s division_id new_parent_id with
    | some e => (.error e, s)
    | none =>
      let old_parent_id := d.parent_id
      let d1 := { d with parent_id := new_parent_id }
      let s1 := write_row s d1
      let so :=
        match new_sort_order with
        | some v => v
        | none => get_next_sort_order s1 new_parent_id
      let d2 := { d1 with sort_order := so }
      let s2 := write_row s1 d2
      let s3 := if old_parent_id != new_parent_id then reorder_siblings s2 old_parent_id
        else s2
      (.ok d2, s3)

/-- Method `DivisionService.restore`: deleted-inclusive lookup, `NotDeleted` guard,
then delegation to `update` with a patch setting only `is_deleted := false`. -/
def restore (s : Store) (division_id : Int) : Except Err Division × Store :=
  match get_by_id s division_id true with
  | none => (.error (.notFound division_id), s)
  | some d =>
    if !d.is_deleted then (.error (.notDeleted division_id), s)
    else update s division_id { is_deleted := some false }

/-- Walk `parent_id` links (over all rows, deleted ones included) starting
from `cur`, reporting whether the id `target` is reached within `fuel`
steps — the "walking `parent_id` from D revisits D" notion of the spec. -/
def chain_revisits (s : Store) (target : Int) : Nat → Option Int → Bool
  | 0, _ => false
  | _, none => false
  | Nat.succ f, some c =>
    if c == target then true
    else chain_revisits s target f ((get_by_id s c true).bind (·.parent_id))

def c7EmptyStore : Store := ⟨[], 1⟩

def c7Store : Store :=
  ⟨[{ id := 1, code := "A", name := "Alpha", parent_id := some 7, sort_order := 30 },
    { id := 2, code := "B", name := "Beta", parent_id := some 7, sort_order := 20,
      is_deleted := true }], 3⟩

def c1Store : Store :=
  ⟨[{ id := 1, code := "HQ", name := "Headquarters", short_name := some "HQ",
      sort_order := 10, is_internal := true, is_deleted := true }], 2⟩

def c2Store0 : Store := ⟨[], 1⟩

def c2DivA : Division := { id := 1, code := "A", name := "Alpha", sort_order := 10 }

def c2DivB : Division :=
  { id := 2, code := "B", name := "Beta", parent_id := some 1, sort_order := 10 }

def c2DivA' : Division :=
  { id := 1, code := "A", name := "Alpha", parent_id := some 2, sort_order := 20 }

def c2Step1 := create c2Store0 { code := "A", name := "Alpha" }

def c2Step2 := create c2Step1.2 { code := "B", name := "Beta", parent_id := some 1 }

def c2Step3 := delete c2Step2.2 2

def c2Step4 := move_division c2Step3.2 1 (some 2)

def c3DelStore : Store :=
  ⟨[{ id := 1, code := "HQ", name := "Old HQ", sort_order := 10, is_deleted := true }], 2⟩

def c3CaseStore : Store :=
  ⟨[{ id := 1, code := "alpha", name := "Alpha", sort_order := 10 }], 2⟩

def c3CaseCreated : Division :=
  { id := 2, code := "ALPHA", name := "Alpha Two", sort_order := 20 }

def c4DelStore : Store :=
  ⟨[{ id := 1, code := "P", name := "Parent", sort_order := 10, is_deleted := true }], 2⟩

def c4ZeroStore : Store := ⟨[], 1⟩

def c4ZeroCreated : Division :=
  { id := 1, code := "C", name := "Child", parent_id := some 0, sort_order := 10 }

def c5Store : Store := ⟨[{ id := 1, code := "A", name := "Alpha", sort_order := 10 }], 2⟩

def c5Moved : Division :=
  { id := 1, code := "A", name := "Alpha", parent_id := some 99, sort_order := 20 }

def c5WitStore : Store := ⟨[{ id := 3, code := "P", name := "Parent", sort_order := 10 }], 4⟩

def c5WitCreated : Division :=
  { id := 4, code := "C", name := "Child", parent_id := some 3, sort_order := 10 }

def c5WitInput : DivisionCreate := { code := "C", name := "Child", parent_id := some 3 }

def c6ZeroStore : Store := ⟨[{ id := 1, code := "R", name := "Root", sort_order := 10 }], 2⟩

def c10Div : Division := { id := 1, code := "A", name := "Alpha", sort_order := 10 }

def c10Store : Store := ⟨[c10Div], 2⟩

/-- The body of the `_reorder_siblings` loop. -/
def reorder_write (acc : Store) (pr : Nat × Division) : Store :=
  write_row acc { pr.2 with sort_order := ((pr.1 : Int) + 1) * 10 }

/-- The non-deleted children of group `p`, the moved division excluded, in
`(sort_order, name)` order — the sibling list `_reorder_siblings` renumbers
after a parent change, expressed against the pre-move store. -/
def siblings_excluding (s : Store) (p : Option Int) (i : Int) : List Division :=
  stableSort sibLT (s.rows.filter fun r =>
    r.parent_id == p && !r.is_deleted && r.id != i)

/-- The division as committed by `move_division` (lines 265-274): new parent,
then the explicit sort order or the next one computed against the store that
already reflects the parent change. -/
def move_d2 (s : Store) (d : Division) (np nso : Option Int) : Division :=
  let d1 := { d with parent_id := np }
  { d1 with
    sort_order :=
      match nso with
      | some v => v
      | none => get_next_sort_order (write_row s d1) np }

/-- The store right after `move_division`'s commit, before any renumbering. -/
def move_commit (s : Store) (d : Division) (np nso : Option Int) : Store :=
  write_row (write_row s { d with parent_id := np }) (move_d2 s d np nso)

def c8R : Division := { id := 1, code := "R", name := "Root", sort_order := 10 }

def c8A : Division :=
  { id := 2, code := "A", name := "Anna", parent_id := some 1, sort_order := 10 }

def c8B : Division :=
  { id := 3, code := "B", name := "Ben", parent_id := some 2, sort_order := 30 }

def c8C : Division :=
  { id := 4, code := "C", name := "Carl", parent_id := some 2, sort_order := 10 }

def c8D : Division :=
  { id := 5, code := "D", name := "Dora", parent_id := some 2, sort_order := 20 }

def c8Store : Store := ⟨[c8R, c8A, c8B, c8C, c8D], 6⟩

/-- Number of `parent_id` steps (through non-deleted lookups, as the service
walks them) from the given link to a root or a broken link; `none` when the
chain does not terminate within `fuel` steps.  The spec's acyclicity notion —
"walking `parent_id` links from any node must terminate at a root within the
total node count" — is `up_steps` returning `some` at fuel `|rows| + 1`. -/
def up_steps (s : Store) : Nat → Option Int → Option Nat
  | _, none => some 0
  | 0, some _ => none
  | Nat.succ f, some c =>
    match get_by_id s c with
    | none => some 0
    | some d => (up_steps s f d.parent_id).map (· + 1)

/-- Predicate: `x` is the root division of `r` or one of its descendants, through the
non-deleted child relation the service traverses. -/
inductive Desc (s : Store) (r : Int) : Division → Prop where
  | root : ∀ d, get_by_id s r = some d → Desc s r d
  | child : ∀ d c, Desc s r d → c ∈ get_children s (some d.id) → Desc s r c

/-- The contract of `_get_subtree` at a root id: correct head, membership
exactly the descendants, descendant-closure, and every element's parent
appearing earlier in the sequence. -/
def SubtreeOk (s : Store) (r : Int) (l : List Division) : Prop :=
  (∀ d, get_by_id s r = some d → l.head? = some d) ∧
  (get_by_id s r = none → l = []) ∧
  (∀ x ∈ l, Desc s r x) ∧
  (∀ d, get_by_id s r = some d → d ∈ l) ∧
  (∀ y ∈ l, ∀ c ∈ get_children s (some y.id), c ∈ l) ∧
  (∀ pre c post, l = pre ++ c :: post →
    pre = [] ∨ ∃ p ∈ pre, c.parent_id = some p.id)

/-- The contract of the `for child in children` loop of `_get_subtree`, for a
sibling group `cs` under the parent id `R`. -/
def ChildrenOk (s : Store) (R : Int) (cs l : List Division) : Prop :=
  (∀ x ∈ l, ∃ c ∈ cs, Desc s c.id x) ∧
  (∀ c ∈ cs, c ∈ l) ∧
  (∀ y ∈ l, ∀ cc ∈ get_children s (some y.id), cc ∈ l) ∧
  (∀ pre x post, l = pre ++ x :: post →
    x.parent_id = some R ∨ ∃ p ∈ pre, x.parent_id = some p.id)

def c6WR : Division := { id := 1, code := "R", name := "Root", sort_order := 10 }

def c6WA : Division :=
  { id := 2, code := "C1", name := "Child1", parent_id := some 1, sort_order := 20 }

def c6WB : Division :=
  { id := 3, code := "C2", name := "Child2", parent_id := some 1, sort_order := 10 }

def c6WG : Division :=
  { id := 4, code := "G", name := "Grand", parent_id := some 2, sort_order := 10 }

def c6WStore : Store := ⟨[c6WR, c6WA, c6WB, c6WG], 5⟩

/-! ## Theorems -/

theorem mem_stableInsert {lt : α → α → Bool} {a x : α} {l : List α} :
    x ∈ stableInsert lt a l ↔ x = a ∨ x ∈ l := by
  induction l with
  | nil => simp [stableInsert]
  | cons b bs ih =>
    by_cases h : lt b a = true
    · rw [stableInsert, if_pos h]
      simp only [List.mem_cons, ih]
      tauto
    · rw [stableInsert, if_neg h]
      simp only [List.mem_cons]

theorem mem_stableSort {lt : α → α → Bool} {x : α} {l : List α} :
    x ∈ stableSort lt l ↔ x ∈ l := by
  induction l with
  | nil => simp [stableSort]
  | cons a as ih => simp [stableSort, mem_stableInsert, ih]

theorem get_by_id_eq_some {s : Store} {i : Int} {b : Bool} {d : Division}
    (h : get_by_id s i b = some d) :
    d ∈ s.rows ∧ d.id = i ∧ (b || !d.is_deleted) = true := by
  refine ⟨List.mem_of_find?_eq_some h, ?_, ?_⟩
  · have := List.find?_some h
    simp only [Bool.and_eq_true, beq_iff_eq] at this
    exact this.1
  · have := List.find?_some h
    simp only [Bool.and_eq_true, beq_iff_eq] at this
    exact this.2

theorem get_by_id_eq_none {s : Store} {i : Int} {b : Bool}
    (h : get_by_id s i b = none) :
    ∀ d ∈ s.rows, ¬(d.id = i ∧ (b || !d.is_deleted) = true) := by
  intro d hd
  have := List.find?_eq_none.mp h d hd
  simp only [Bool.and_eq_true, beq_iff_eq] at this
  tauto

theorem get_by_code_true_isSome_iff (s : Store) (c : String) :
    (get_by_code s c true).isSome ↔ ∃ d ∈ s.rows, d.code = c := by
  simp [get_by_code, List.find?_isSome]

theorem mem_get_children {s : Store} {p : Option Int} {b : Bool} {c : Division} :
    c ∈ get_children s p b ↔
      c ∈ s.rows ∧ c.parent_id = p ∧ (b || !c.is_deleted) = true := by
  simp [get_children, mem_stableSort, List.mem_filter]

/-- C7: `nextSortOrder(parentId)` returns `10` on an empty sibling group and
`m + 10` when the group (deleted rows included, as the source queries it) has
maximum `sort_order` `m`. -/
theorem next_sort_order_spec (s : Store) (p : Option Int) :
    ((s.rows.filter fun d => d.parent_id == p) = [] → get_next_sort_order s p = 10) ∧
    (∀ m : Int,
      ((s.rows.filter fun d => d.parent_id == p).map (·.sort_order)).max? = some m →
      get_next_sort_order s p = m + 10) := by
  constructor
  · intro h
    simp [get_next_sort_order, h]
  · intro m hm
    simp only [get_next_sort_order, hm]
    by_cases h0 : m = 0
    · simp [h0]
    · simp [h0]

theorem next_sort_order_spec_witness :
    get_next_sort_order c7EmptyStore none = 10 ∧
    get_next_sort_order c7Store (some 7) = 40 :=
  ⟨(next_sort_order_spec c7EmptyStore none).1 rfl,
   (next_sort_order_spec c7Store (some 7)).2 30 rfl⟩

/-- C1: restore can never succeed.  On a store holding exactly one division,
which is soft-deleted, `restore` raises `DivisionNotFoundError`: it passes its
own two guards and delegates to `update`, whose initial lookup excludes
deleted rows.  The store is left unchanged, and `is_deleted` stays `true`. -/
theorem restore_deleted_division_fails :
    restore c1Store 1 = (.error (.notFound 1), c1Store) := rfl

/-- C2: the sequence create A; create B under A; soft-delete B; move A under B
commits successfully at every step, and in the final store walking `parent_id`
links from division 1 revisits division 1 (1 → 2 → 1): the cycle check walks
only non-deleted rows and `move_division` never verifies the new parent, so a
cycle reaches the committed store. -/
theorem move_after_soft_delete_creates_cycle :
    c2Step1.1 = .ok c2DivA ∧
    c2Step2.1 = .ok c2DivB ∧
    c2Step3.1 = .ok true ∧
    c2Step4.1 = .ok c2DivA' ∧
    chain_revisits c2Step4.2 1 5 ((get_by_id c2Step4.2 1 true).bind (·.parent_id)) =
      true :=
  ⟨rfl, rfl, rfl, rfl, rfl⟩

theorem get_by_code_eq_some {s : Store} {c : String} {b : Bool} {d : Division}
    (h : get_by_code s c b = some d) : d ∈ s.rows ∧ d.code = c := by
  refine ⟨List.mem_of_find?_eq_some h, ?_⟩
  have := List.find?_some h
  simp only [Bool.and_eq_true, beq_iff_eq] at this
  exact this.1

theorem get_by_code_true_eq_none_iff {s : Store} {c : String} :
    get_by_code s c true = none ↔ ∀ d ∈ s.rows, d.code ≠ c := by
  simp [get_by_code, List.find?_eq_none]

theorem get_by_id_false_eq_none_iff {s : Store} {i : Int} :
    get_by_id s i false = none ↔
      ∀ d ∈ s.rows, d.is_deleted = false → d.id ≠ i := by
  rw [get_by_id, List.find?_eq_none]
  constructor
  · intro h d hd hdel hdi
    have h2 := h d hd
    rw [hdi, hdel] at h2
    simp at h2
  · intro h d hd
    by_cases hdel : d.is_deleted
    · simp [hdel]
    · have hne : d.id ≠ i := h d hd (by simpa using hdel)
      simp [hdel, hne]

theorem mem_write_row {s : Store} {d r : Division} (h : r ∈ (write_row s d).rows) :
    r = d ∨ (r ∈ s.rows ∧ r.id ≠ d.id) := by
  simp only [write_row, List.mem_map] at h
  obtain ⟨a, ha, he⟩ := h
  by_cases hc : (a.id == d.id) = true
  · rw [if_pos hc] at he
    exact Or.inl he.symm
  · rw [if_neg hc] at he
    subst he
    exact Or.inr ⟨ha, by simpa using hc⟩

/-- C3 counterexample: a code held only by a soft-deleted division does block
creation (the lookup passes `include_deleted=True`), and creating a case
variant (`"ALPHA"` next to non-deleted `"alpha"`) succeeds because the SQL
comparison is exact, not case-insensitive — both directions of the claimed
equivalence fail. -/
theorem create_code_check_counterexample :
    (create c3DelStore { code := "HQ", name := "New HQ" }).1 =
      .error (.codeExists "HQ") ∧
    (∀ d ∈ c3DelStore.rows, d.is_deleted = true) ∧
    (create c3CaseStore { code := "ALPHA", name := "Alpha Two" }).1 =
      .ok c3CaseCreated ∧
    (∃ d ∈ c3CaseStore.rows, d.is_deleted = false ∧ d.code = "alpha") :=
  ⟨rfl, by decide, rfl, by decide⟩

theorem create_eq_of_code_conflict {s : Store} {x : DivisionCreate} {d : Division}
    (h : get_by_code s x.code true = some d) :
    create s x = (.error (.codeExists x.code), s) := by
  unfold create
  rw [h]

theorem create_eq_of_no_parent {s : Store} {x : DivisionCreate}
    (hc : get_by_code s x.code true = none) (hp : x.parent_id = none) :
    create s x = create_insert s x := by
  unfold create
  rw [hc, hp]

theorem create_eq_of_parent_zero {s : Store} {x : DivisionCreate}
    (hc : get_by_code s x.code true = none) (hp : x.parent_id = some 0) :
    create s x = create_insert s x := by
  unfold create
  rw [hc, hp]
  simp

theorem create_eq_of_parent_missing {s : Store} {x : DivisionCreate} {p : Int}
    (hc : get_by_code s x.code true = none) (hp : x.parent_id = some p)
    (h0 : p ≠ 0) (hg : get_by_id s p = none) :
    create s x = (.error (.parentNotFound p), s) := by
  unfold create
  rw [hc, hp]
  simp [h0, hg]

theorem create_eq_of_parent_found {s : Store} {x : DivisionCreate} {p : Int}
    {w : Division} (hc : get_by_code s x.code true = none) (hp : x.parent_id = some p)
    (h0 : p ≠ 0) (hg : get_by_id s p = some w) :
    create s x = create_insert s x := by
  unfold create
  rw [hc, hp]
  simp [h0, hg]

theorem create_insert_fst_ne_error (s : Store) (x : DivisionCreate) (e : Err) :
    (create_insert s x).1 ≠ .error e := by
  simp [create_insert]

/-- C3 (amended): `create` fails with `CodeExists` exactly when some division
— deleted or not — carries a code exactly (case-sensitively) equal to
`input.code`. -/
theorem create_codeExists_iff (s : Store) (x : DivisionCreate) :
    (create s x).1 = .error (.codeExists x.code) ↔ ∃ d ∈ s.rows, d.code = x.code := by
  rw [← get_by_code_true_isSome_iff]
  cases heq : get_by_code s x.code true with
  | some d => simp [create_eq_of_code_conflict heq]
  | none =>
    simp only [Option.isSome_none, Bool.false_eq_true, iff_false]
    cases hp : x.parent_id with
    | none => rw [create_eq_of_no_parent heq hp]; exact create_insert_fst_ne_error s x _
    | some q =>
      by_cases h0 : q = 0
      · subst h0
        rw [create_eq_of_parent_zero heq hp]
        exact create_insert_fst_ne_error s x _
      · cases hgp : get_by_id s q with
        | none =>
          rw [create_eq_of_parent_missing heq hp h0 hgp]
          simp
        | some w =>
          rw [create_eq_of_parent_found heq hp h0 hgp]
          exact create_insert_fst_ne_error s x _

/-- C4 counterexample: creating under a soft-deleted parent raises
`ParentNotFound` even though a division with that id exists (the existence
lookup excludes deleted rows), and creating with `parentId = 0` succeeds even
though no division has id 0 (Python truthiness skips the check) — both
directions of the claimed equivalence fail. -/
theorem create_parent_check_counterexample :
    (create c4DelStore { code := "C", name := "Child", parent_id := some 1 }).1 =
      .error (.parentNotFound 1) ∧
    (∃ d ∈ c4DelStore.rows, d.id = 1) ∧
    (create c4ZeroStore { code := "C", name := "Child", parent_id := some 0 }).1 =
      .ok c4ZeroCreated ∧
    (∀ d ∈ c4ZeroStore.rows, d.id ≠ 0) :=
  ⟨rfl, by decide, rfl, by decide⟩

/-- C4 (amended): `create` fails with `ParentNotFound p` exactly when the code
check passed (no division at all holds `input.code`), `input.parentId` is set
to the nonzero `p`, and no non-deleted division has id `p`. -/
theorem create_parentNotFound_iff (s : Store) (x : DivisionCreate) (p : Int) :
    (create s x).1 = .error (.parentNotFound p) ↔
      (∀ d ∈ s.rows, d.code ≠ x.code) ∧ x.parent_id = some p ∧ p ≠ 0 ∧
        ∀ d ∈ s.rows, d.is_deleted = false → d.id ≠ p := by
  cases heq : get_by_code s x.code true with
  | some d =>
    obtain ⟨hmem, hcode⟩ := get_by_code_eq_some heq
    rw [create_eq_of_code_conflict heq]
    simp only [Except.error.injEq, reduceCtorEq, false_iff, not_and]
    intro hall
    exact absurd hcode (hall d hmem)
  | none =>
    have hnone := get_by_code_true_eq_none_iff.mp heq
    rw [and_iff_right hnone]
    cases hp : x.parent_id with
    | none =>
      rw [create_eq_of_no_parent heq hp]
      simp [create_insert_fst_ne_error s x _]
    | some q =>
      by_cases h0 : q = 0
      · subst h0
        rw [create_eq_of_parent_zero heq hp]
        simp only [create_insert_fst_ne_error s x _, false_iff, not_and,
          Option.some.injEq]
        intro hqp hp0
        exact absurd hqp.symm hp0
      · cases hgp : get_by_id s q with
        | none =>
          have hgp' := get_by_id_false_eq_none_iff.mp hgp
          rw [create_eq_of_parent_missing heq hp h0 hgp]
          simp only [Except.error.injEq, Err.parentNotFound.injEq, Option.some.injEq]
          constructor
          · intro hqp
            subst hqp
            exact ⟨rfl, h0, hgp'⟩
          · intro h
            exact h.1
        | some w =>
          obtain ⟨hwmem, hwid, hwdel⟩ := get_by_id_eq_some hgp
          rw [create_eq_of_parent_found heq hp h0 hgp]
          simp only [create_insert_fst_ne_error s x _, false_iff, not_and,
            Option.some.injEq]
          intro hqp hp0 hall
          exact hall w hwmem (by simpa using hwdel) (hwid.trans hqp)

/-- C5 counterexample: `move_division` never checks that the new parent
exists, so moving the only division under the nonexistent id 99 commits a
store in which a non-null `parent_id` references no division at all. -/
theorem move_division_dangling_parent :
    (move_division c5Store 1 (some 99)).1 = .ok c5Moved ∧
    (move_division c5Store 1 (some 99)).2.rows = [c5Moved] ∧
    (∀ q ∈ (move_division c5Store 1 (some 99)).2.rows, q.id ≠ 99) ∧
    c5Moved.parent_id = some 99 :=
  ⟨rfl, rfl, by decide, rfl⟩

/-- C5 (amended): `create` does preserve referential integrity — when it
succeeds with a set, nonzero `parentId`, a non-deleted division with that id
is present in the resulting store.  (A committed `move_division` enjoys no
such guarantee, as the counterexample shows.) -/
theorem create_parent_reference_exists (s : Store) (x : DivisionCreate) (p : Int)
    (hp : x.parent_id = some p) (hp0 : p ≠ 0) (v : Division)
    (hok : (create s x).1 = .ok v) :
    ∃ q ∈ (create s x).2.rows, q.id = p ∧ q.is_deleted = false := by
  cases heq : get_by_code s x.code true with
  | some d =>
    rw [create_eq_of_code_conflict heq] at hok
    exact absurd hok (by simp)
  | none =>
    cases hgp : get_by_id s p with
    | none =>
      rw [create_eq_of_parent_missing heq hp hp0 hgp] at hok
      exact absurd hok (by simp)
    | some w =>
      obtain ⟨hwmem, hwid, hwdel⟩ := get_by_id_eq_some hgp
      rw [create_eq_of_parent_found heq hp hp0 hgp]
      refine ⟨w, ?_, hwid, by simpa using hwdel⟩
      simp only [create_insert, List.mem_append]
      exact Or.inl hwmem

theorem create_parent_reference_exists_witness :
    ∃ q ∈ (create c5WitStore c5WitInput).2.rows, q.id = 3 ∧ q.is_deleted = false :=
  create_parent_reference_exists c5WitStore c5WitInput 3 rfl (by decide)
    c5WitCreated rfl

/-- C6 counterexample: a `rootId` of `0` resolves to no division, yet
`getHierarchyTree(0)` does not return the empty sequence — the Python
truthiness test `if root_id:` sends `0` down the rootless branch, which
returns the top-level listing. -/
theorem hierarchy_tree_root_zero_counterexample :
    get_by_id c6ZeroStore 0 true = none ∧
    get_hierarchy_tree c6ZeroStore (some 0) =
      some [{ id := 1, code := "R", name := "Root", sort_order := 10 }] ∧
    get_hierarchy_tree c6ZeroStore (some 0) ≠ some [] :=
  ⟨rfl, rfl, by decide⟩

theorem update_eq_of_notFound {s : Store} {i : Int} {u : DivisionUpdate}
    (hfind : get_by_id s i = none) :
    update s i u = (.error (.notFound i), s) := by
  unfold update
  rw [hfind]

theorem update_eq_of_code_err {s : Store} {i : Int} {u : DivisionUpdate}
    {d : Division} {e : Err} (hfind : get_by_id s i = some d)
    (hcc : update_code_check s d u.code = some e) :
    update s i u = (.error e, s) := by
  unfold update
  rw [hfind]
  simp [hcc]

theorem update_eq_of_parent_err {s : Store} {i : Int} {u : DivisionUpdate}
    {d : Division} {e : Err} (hfind : get_by_id s i = some d)
    (hcc : update_code_check s d u.code = none)
    (hpc : update_parent_check s i u.parent_id = some e) :
    update s i u = (.error e, s) := by
  unfold update
  rw [hfind]
  simp [hcc, hpc]

theorem update_eq_of_checks {s : Store} {i : Int} {u : DivisionUpdate}
    {d : Division} (hfind : get_by_id s i = some d)
    (hcc : update_code_check s d u.code = none)
    (hpc : update_parent_check s i u.parent_id = none) :
    update s i u = (.ok (apply_update u d), write_row s (apply_update u d)) := by
  unfold update
  rw [hfind]
  simp [hcc, hpc]

theorem delete_eq_of_notFound {s : Store} {i : Int} {b : Bool}
    (hfind : get_by_id s i = none) :
    delete s i b = (.error (.notFound i), s) := by
  unfold delete
  rw [hfind]

theorem delete_eq_of_children {s : Store} {i : Int} {b : Bool} {d : Division}
    (hfind : get_by_id s i = some d)
    (hc : (get_children s (some i)).isEmpty = false) :
    delete s i b = (.error (.hasChildren (get_children s (some i)).length), s) := by
  unfold delete
  rw [hfind]
  simp [hc]

theorem delete_eq_soft {s : Store} {i : Int} {d : Division}
    (hfind : get_by_id s i = some d)
    (hc : (get_children s (some i)).isEmpty = true) :
    delete s i true = (.ok true, write_row s { d with is_deleted := true }) := by
  unfold delete
  rw [hfind]
  simp [hc]

theorem delete_eq_hard {s : Store} {i : Int} {d : Division}
    (hfind : get_by_id s i = some d)
    (hc : (get_children s (some i)).isEmpty = true) :
    delete s i false = (.ok true, ⟨s.rows.filter fun r => r.id != d.id, s.nextId⟩) := by
  unfold delete
  rw [hfind]
  simp [hc]

theorem move_eq_of_notFound {s : Store} {i : Int} {np nso : Option Int}
    (hfind : get_by_id s i = none) :
    move_division s i np nso = (.error (.notFound i), s) := by
  unfold move_division
  rw [hfind]

theorem move_eq_of_validate_err {s : Store} {i : Int} {np nso : Option Int}
    {d : Division} {e : Err} (hfind : get_by_id s i = some d)
    (hv : move_validate s i np = some e) :
    move_division s i np nso = (.error e, s) := by
  unfold move_division
  rw [hfind]
  simp [hv]

theorem move_eq_of_valid {s : Store} {i : Int} {np nso : Option Int}
    {d : Division} (hfind : get_by_id s i = some d)
    (hv : move_validate s i np = none) :
    move_division s i np nso =
      (let d1 := { d with parent_id := np }
       let s1 := write_row s d1
       let so := match nso with
         | some v => v
         | none => get_next_sort_order s1 np
       let d2 := { d1 with sort_order := so }
       let s2 := write_row s1 d2
       (.ok d2, if d.parent_id != np then reorder_siblings s2 d.parent_id else s2)) := by
  unfold move_division
  rw [hfind]
  dsimp only
  rw [hv]
  rfl

theorem create_error_unchanged (s : Store) (x : DivisionCreate) (e : Err)
    (h : (create s x).1 = .error e) : (create s x).2 = s := by
  cases heq : get_by_code s x.code true with
  | some d => rw [create_eq_of_code_conflict heq]
  | none =>
    cases hp : x.parent_id with
    | none =>
      rw [create_eq_of_no_parent heq hp] at h
      exact absurd h (create_insert_fst_ne_error s x e)
    | some q =>
      by_cases h0 : q = 0
      · subst h0
        rw [create_eq_of_parent_zero heq hp] at h
        exact absurd h (create_insert_fst_ne_error s x e)
      · cases hgp : get_by_id s q with
        | none => rw [create_eq_of_parent_missing heq hp h0 hgp]
        | some w =>
          rw [create_eq_of_parent_found heq hp h0 hgp] at h
          exact absurd h (create_insert_fst_ne_error s x e)

theorem update_error_unchanged (s : Store) (i : Int) (u : DivisionUpdate) (e : Err)
    (h : (update s i u).1 = .error e) : (update s i u).2 = s := by
  cases hfind : get_by_id s i with
  | none => rw [update_eq_of_notFound hfind]
  | some d =>
    cases hcc : update_code_check s d u.code with
    | some e2 => rw [update_eq_of_code_err hfind hcc]
    | none =>
      cases hpc : update_parent_check s i u.parent_id with
      | some e2 => rw [update_eq_of_parent_err hfind hcc hpc]
      | none =>
        rw [update_eq_of_checks hfind hcc hpc] at h
        exact absurd h (by simp)

theorem delete_error_unchanged (s : Store) (i : Int) (b : Bool) (e : Err)
    (h : (delete s i b).1 = .error e) : (delete s i b).2 = s := by
  cases hfind : get_by_id s i with
  | none => rw [delete_eq_of_notFound hfind]
  | some d =>
    cases hc : (get_children s (some i)).isEmpty with
    | false => rw [delete_eq_of_children hfind hc]
    | true =>
      cases b with
      | true =>
        rw [delete_eq_soft hfind hc] at h
        exact absurd h (by simp)
      | false =>
        rw [delete_eq_hard hfind hc] at h
        exact absurd h (by simp)

theorem move_error_unchanged (s : Store) (i : Int) (np nso : Option Int) (e : Err)
    (h : (move_division s i np nso).1 = .error e) : (move_division s i np nso).2 = s := by
  cases hfind : get_by_id s i with
  | none => rw [move_eq_of_notFound hfind]
  | some d =>
    cases hv : move_validate s i np with
    | some e2 => rw [move_eq_of_validate_err hfind hv]
    | none =>
      rw [move_eq_of_valid hfind hv] at h
      exact absurd h (by simp)

theorem restore_error_unchanged (s : Store) (i : Int) (e : Err)
    (h : (restore s i).1 = .error e) : (restore s i).2 = s := by
  unfold restore at h ⊢
  cases hfind : get_by_id s i true with
  | none => rfl
  | some d =>
    cases hdel : d.is_deleted with
    | false => simp [hdel]
    | true =>
      rw [hfind] at h
      simp only [hdel, Bool.not_true, Bool.false_eq_true, if_false] at h ⊢
      exact update_error_unchanged s i { is_deleted := some false } e h

/-- C9: every mutating operation of the service is atomic on failure — if
`create`, `update`, `delete`, `move_division` or `restore` returns an error,
the committed store after the call is exactly the store before it. -/
theorem mutations_unchanged_on_error :
    (∀ (s : Store) (x : DivisionCreate) (e : Err),
      (create s x).1 = .error e → (create s x).2 = s) ∧
    (∀ (s : Store) (i : Int) (u : DivisionUpdate) (e : Err),
      (update s i u).1 = .error e → (update s i u).2 = s) ∧
    (∀ (s : Store) (i : Int) (b : Bool) (e : Err),
      (delete s i b).1 = .error e → (delete s i b).2 = s) ∧
    (∀ (s : Store) (i : Int) (np nso : Option Int) (e : Err),
      (move_division s i np nso).1 = .error e → (move_division s i np nso).2 = s) ∧
    (∀ (s : Store) (i : Int) (e : Err),
      (restore s i).1 = .error e → (restore s i).2 = s) :=
  ⟨create_error_unchanged, update_error_unchanged, delete_error_unchanged,
   move_error_unchanged, restore_error_unchanged⟩

theorem mutations_unchanged_on_error_witness :
    (update (⟨[], 1⟩ : Store) 5 {}).1 = .error (.notFound 5) ∧
    (update (⟨[], 1⟩ : Store) 5 {}).2 = (⟨[], 1⟩ : Store) :=
  ⟨rfl, mutations_unchanged_on_error.2.1 ⟨[], 1⟩ 5 {} (.notFound 5) rfl⟩

/-- C10: patching an existing division with `parentId = 0` raises none of
`SelfParent`, `ParentNotFound`, `CircularReference` — the literal `0` skips
the existence and cycle checks — and the committed row's `parent_id` becomes
the literal integer `0`, not null. -/
theorem update_parent_zero_spec (s : Store) (D : Int) (d0 : Division)
    (hfind : get_by_id s D = some d0) (hD : D ≠ 0) :
    (update s D { parent_id := some (some 0) }).1 =
      .ok { d0 with parent_id := some 0 } ∧
    ∀ r ∈ (update s D { parent_id := some (some 0) }).2.rows,
      r.id = D → r.parent_id = some 0 := by
  have hid : d0.id = D := (get_by_id_eq_some hfind).2.1
  have h0D : ((0 : Int) == D) = false := by
    simp only [beq_eq_false_iff_ne, ne_eq]
    exact fun h => hD h.symm
  have hpc : update_parent_check s D (some (some 0)) = none := by
    simp [update_parent_check, h0D]
  have heq := @update_eq_of_checks s D { parent_id := some (some 0) } d0
    hfind rfl hpc
  have happ : apply_update { parent_id := some (some 0) } d0 =
      { d0 with parent_id := some 0 } := rfl
  rw [happ] at heq
  rw [heq]
  refine ⟨rfl, ?_⟩
  intro r hr hrD
  rcases mem_write_row hr with h | ⟨hmem, hne⟩
  · rw [h]
  · exact absurd (by simpa [hid] using hrD) hne

theorem update_parent_zero_spec_witness :
    (update c10Store 1 { parent_id := some (some 0) }).1 =
      .ok { c10Div with parent_id := some 0 } ∧
    ∀ r ∈ (update c10Store 1 { parent_id := some (some 0) }).2.rows,
      r.id = 1 → r.parent_id = some 0 :=
  update_parent_zero_spec c10Store 1 c10Div rfl (by decide)

theorem write_row_ids (s : Store) (d : Division) :
    (write_row s d).rows.map (·.id) = s.rows.map (·.id) := by
  simp only [write_row, List.map_map]
  apply List.map_congr_left
  intro r _
  by_cases h : (r.id == d.id) = true
  · simp only [Function.comp_apply, if_pos h]
    exact (beq_iff_eq.mp h).symm
  · simp only [Function.comp_apply, if_neg h]

theorem get_by_id_write_row_other {s : Store} {d : Division} {j : Int} {b : Bool}
    (h : j ≠ d.id) :
    get_by_id (write_row s d) j b = get_by_id s j b := by
  unfold get_by_id write_row
  generalize s.rows = rows
  induction rows with
  | nil => rfl
  | cons a as ih =>
    simp only [List.map_cons, List.find?_cons]
    by_cases hid : (a.id == d.id) = true
    · have ha : a.id = d.id := beq_iff_eq.mp hid
      rw [if_pos hid]
      have h1 : (d.id == j) = false := by
        simp only [beq_eq_false_iff_ne, ne_eq]
        exact fun hc => h hc.symm
      have h2 : (a.id == j) = false := by
        simp only [beq_eq_false_iff_ne, ne_eq, ha]
        exact fun hc => h hc.symm
      simp only [h1, h2, Bool.false_and]
      exact ih
    · rw [if_neg hid]
      cases hp : (a.id == j && (b || !a.is_deleted)) with
      | true => rfl
      | false => exact ih

theorem get_by_id_write_row_self_true {s : Store} {d : Division}
    (hex : ∃ r ∈ s.rows, r.id = d.id) :
    get_by_id (write_row s d) d.id true = some d := by
  unfold get_by_id write_row
  revert hex
  generalize s.rows = rows
  intro hex
  induction rows with
  | nil => simp at hex
  | cons a as ih =>
    simp only [List.map_cons, List.find?_cons]
    by_cases hid : (a.id == d.id) = true
    · rw [if_pos hid]
      simp
    · rw [if_neg hid]
      have h2 : (a.id == d.id && (true || !a.is_deleted)) = false := by
        simp [hid]
      rw [h2]
      apply ih
      rcases hex with ⟨r, hr, hrid⟩
      rcases List.mem_cons.mp hr with h | h
      · subst h
        exact absurd (by simpa using hrid) (by simpa using hid)
      · exact ⟨r, h, hrid⟩

theorem get_by_id_true_of_mem {s : Store} {r : Division}
    (hnodup : (s.rows.map (·.id)).Nodup) (hmem : r ∈ s.rows) :
    get_by_id s r.id true = some r := by
  unfold get_by_id
  revert hnodup hmem
  generalize s.rows = rows
  intro hnodup hmem
  induction rows with
  | nil => simp at hmem
  | cons a as ih =>
    simp only [List.find?_cons]
    rcases List.mem_cons.mp hmem with h | h
    · subst h
      simp
    · have hne : (a.id == r.id) = false := by
        simp only [List.map_cons, List.nodup_cons, List.mem_map] at hnodup
        simp only [beq_eq_false_iff_ne, ne_eq]
        intro hc
        exact hnodup.1 ⟨r, h, hc.symm⟩
      simp only [hne, Bool.false_and]
      exact ih (by simpa using (List.nodup_cons.mp (by simpa using hnodup)).2) h

theorem filter_write_row {s : Store} {d2 : Division} {P : Division → Bool}
    (hP : P d2 = false) :
    (write_row s d2).rows.filter P =
      s.rows.filter fun r => P r && r.id != d2.id := by
  simp only [write_row]
  generalize s.rows = rows
  induction rows with
  | nil => rfl
  | cons a as ih =>
    simp only [List.map_cons, List.filter_cons]
    by_cases hid : (a.id == d2.id) = true
    · rw [if_pos hid]
      have hbne : (a.id != d2.id) = false := by simp [bne, hid]
      simp only [hP, hbne, Bool.and_false, Bool.false_eq_true, if_false]
      exact ih
    · rw [if_neg hid]
      have hbne : (a.id != d2.id) = true := by simp [bne, hid]
      simp only [hbne, Bool.and_true]
      cases hp : P a with
      | true => simp only [if_true, ih]
      | false => simp only [Bool.false_eq_true, if_false, ih]

theorem reorder_siblings_eq_foldl (s : Store) (p : Option Int) :
    reorder_siblings s p = (get_children s p).enum.foldl reorder_write s := rfl

theorem foldl_reorder_ids (ps : List (Nat × Division)) (s0 : Store) :
    ((ps.foldl reorder_write s0).rows.map (·.id)) = s0.rows.map (·.id) := by
  induction ps generalizing s0 with
  | nil => rfl
  | cons pr ps ih =>
    rw [List.foldl_cons, ih]
    exact write_row_ids s0 _

theorem foldl_reorder_lookup_other (ps : List (Nat × Division)) (s0 : Store)
    (j : Int) (b : Bool) (h : ∀ pr ∈ ps, pr.2.id ≠ j) :
    get_by_id (ps.foldl reorder_write s0) j b = get_by_id s0 j b := by
  induction ps generalizing s0 with
  | nil => rfl
  | cons pr ps ih =>
    rw [List.foldl_cons]
    rw [ih _ fun q hq => h q (List.mem_cons_of_mem pr hq)]
    exact get_by_id_write_row_other fun hc =>
      h pr (List.mem_cons_self pr ps) hc.symm

theorem foldl_reorder_lookup_hit (ps1 ps2 : List (Nat × Division))
    (pr : Nat × Division) (s0 : Store)
    (hps2 : ∀ q ∈ ps2, q.2.id ≠ pr.2.id)
    (hex : ∃ r ∈ s0.rows, r.id = pr.2.id) :
    get_by_id ((ps1 ++ pr :: ps2).foldl reorder_write s0) pr.2.id true =
      some { pr.2 with sort_order := ((pr.1 : Int) + 1) * 10 } := by
  rw [List.foldl_append, List.foldl_cons]
  rw [foldl_reorder_lookup_other ps2 _ _ _ hps2]
  have hex1 : ∃ r ∈ (ps1.foldl reorder_write s0).rows, r.id = pr.2.id := by
    rcases hex with ⟨r, hr, hrid⟩
    have : pr.2.id ∈ (ps1.foldl reorder_write s0).rows.map (·.id) := by
      rw [foldl_reorder_ids]
      exact List.mem_map.mpr ⟨r, hr, hrid⟩
    rcases List.mem_map.mp this with ⟨w, hw, hwid⟩
    exact ⟨w, hw, hwid⟩
  exact get_by_id_write_row_self_true hex1

theorem mem_siblings_excluding {s : Store} {p : Option Int} {i : Int}
    {c : Division} (h : c ∈ siblings_excluding s p i) :
    c ∈ s.rows ∧ c.parent_id = p ∧ c.is_deleted = false ∧ c.id ≠ i := by
  rw [siblings_excluding, mem_stableSort, List.mem_filter] at h
  refine ⟨h.1, ?_⟩
  have := h.2
  simp only [Bool.and_eq_true, beq_iff_eq, Bool.not_eq_true', bne_iff_ne,
    ne_eq] at this
  tauto

theorem stableInsert_perm (lt : α → α → Bool) (a : α) (l : List α) :
    List.Perm (stableInsert lt a l) (a :: l) := by
  induction l with
  | nil => rfl
  | cons b bs ih =>
    by_cases h : lt b a = true
    · rw [stableInsert, if_pos h]
      exact ((ih.cons b).trans (List.Perm.swap a b bs)).symm.symm
    · rw [stableInsert, if_neg h]

theorem stableSort_perm (lt : α → α → Bool) (l : List α) :
    List.Perm (stableSort lt l) l := by
  induction l with
  | nil => rfl
  | cons a as ih =>
    rw [stableSort]
    exact (stableInsert_perm lt a (stableSort lt as)).trans (ih.cons a)

theorem move_eq_commit {s : Store} {i : Int} {np nso : Option Int}
    {d : Division} (hfind : get_by_id s i = some d)
    (hv : move_validate s i np = none) :
    move_division s i np nso =
      (.ok (move_d2 s d np nso),
       if d.parent_id != np then
         reorder_siblings (move_commit s d np nso) d.parent_id
       else move_commit s d np nso) := by
  rw [move_eq_of_valid hfind hv]
  rfl

theorem move_commit_ids (s : Store) (d : Division) (np nso : Option Int) :
    (move_commit s d np nso).rows.map (·.id) = s.rows.map (·.id) := by
  rw [move_commit, write_row_ids, write_row_ids]

theorem move_d2_id (s : Store) (d : Division) (np nso : Option Int) :
    (move_d2 s d np nso).id = d.id := rfl

theorem move_commit_lookup_other {s : Store} {d : Division} {np nso : Option Int}
    {j : Int} {b : Bool} (h : j ≠ d.id) :
    get_by_id (move_commit s d np nso) j b = get_by_id s j b := by
  rw [move_commit, get_by_id_write_row_other (by simpa [move_d2_id] using h),
    get_by_id_write_row_other (by simpa using h)]

theorem move_commit_children {s : Store} {d0 : Division} {np nso : Option Int}
    (hne : d0.parent_id ≠ np) :
    get_children (move_commit s d0 np nso) d0.parent_id =
      siblings_excluding s d0.parent_id d0.id := by
  rw [get_children, siblings_excluding, move_commit]
  congr 1
  have hP2 : ((move_d2 s d0 np nso).parent_id == d0.parent_id &&
      (false || !(move_d2 s d0 np nso).is_deleted)) = false := by
    have : (move_d2 s d0 np nso).parent_id = np := rfl
    rw [this]
    have : (np == d0.parent_id) = false := by
      simp only [beq_eq_false_iff_ne, ne_eq]
      exact fun hc => hne hc.symm
    simp [this]
  rw [filter_write_row hP2]
  have hP1 : ((({ d0 with parent_id := np } : Division).parent_id == d0.parent_id &&
      (false || !({ d0 with parent_id := np } : Division).is_deleted)) &&
      ({ d0 with parent_id := np } : Division).id != (move_d2 s d0 np nso).id) =
      false := by
    have h1 : ({ d0 with parent_id := np } : Division).id =
        (move_d2 s d0 np nso).id := rfl
    rw [h1, bne_self_eq_false, Bool.and_false]
  rw [filter_write_row hP1]
  apply List.filter_congr
  intro r _
  have h2 : (move_d2 s d0 np nso).id = d0.id := rfl
  have h1 : ({ d0 with parent_id := np } : Division).id = d0.id := rfl
  rw [h2, h1, Bool.false_or]
  cases hp : (r.parent_id == d0.parent_id) <;>
    cases hd : r.is_deleted <;>
      cases hi : (r.id != d0.id) <;> simp [hp, hd, hi]

theorem siblings_excluding_ids_nodup {s : Store} {p : Option Int} {i : Int}
    (hnodup : (s.rows.map (·.id)).Nodup) :
    ((siblings_excluding s p i).map (·.id)).Nodup := by
  have hperm : List.Perm (siblings_excluding s p i)
      (s.rows.filter fun r => r.parent_id == p && !r.is_deleted && r.id != i) :=
    stableSort_perm _ _
  refine (hperm.map (·.id)).nodup_iff.mpr ?_
  exact ((List.filter_sublist s.rows).map (·.id)).nodup hnodup

/-- C8: after a successful `move_division`, (1) if the parent changed, the
non-deleted children of the old parent — the moved division excluded — end up
with sort orders `10, 20, 30, …` assigned in their prior `(sort_order, name)`
order, (2) every pre-existing row (other than the moved one) whose parent is
the new parent is completely untouched, and (3) if the parent did not change,
every row other than the moved one is completely untouched. -/
theorem move_division_reorder_spec (s : Store) (i : Int) (np nso : Option Int)
    (d0 : Division) (hfind : get_by_id s i = some d0)
    (hnodup : (s.rows.map (·.id)).Nodup)
    (v : Division) (hok : (move_division s i np nso).1 = .ok v) :
    (d0.parent_id ≠ np →
      (∀ pr ∈ (siblings_excluding s d0.parent_id i).enum,
        get_by_id (move_division s i np nso).2 pr.2.id true =
          some { pr.2 with sort_order := ((pr.1 : Int) + 1) * 10 }) ∧
      (∀ r ∈ s.rows, r.id ≠ i → r.parent_id = np →
        get_by_id (move_division s i np nso).2 r.id true = some r)) ∧
    (d0.parent_id = np →
      ∀ r ∈ s.rows, r.id ≠ i →
        get_by_id (move_division s i np nso).2 r.id true = some r) := by
  have hid : d0.id = i := (get_by_id_eq_some hfind).2.1
  cases hv : move_validate s i np with
  | some e =>
    rw [move_eq_of_validate_err hfind hv] at hok
    exact absurd hok (by simp)
  | none =>
    have hmv := @move_eq_commit s i np nso d0 hfind hv
    constructor
    · intro hne
      have hbne : (d0.parent_id != np) = true := by simpa [bne] using hne
      have hsnd : (move_division s i np nso).2 =
          reorder_siblings (move_commit s d0 np nso) d0.parent_id := by
        rw [hmv]
        simp [hbne]
      have hcs : get_children (move_commit s d0 np nso) d0.parent_id =
          siblings_excluding s d0.parent_id i := by
        rw [move_commit_children hne, hid]
      have hcsnodup := @siblings_excluding_ids_nodup s d0.parent_id i hnodup
      constructor
      · intro pr hpr
        obtain ⟨ps1, ps2, hdecomp⟩ := List.append_of_mem hpr
        have hids : (siblings_excluding s d0.parent_id i).enum.map (fun q => q.2.id) =
            (siblings_excluding s d0.parent_id i).map (·.id) := by
          rw [show (fun q : Nat × Division => q.2.id) =
            ((·.id) ∘ Prod.snd) from rfl, ← List.map_map, List.enum_map_snd]
        have hnd2 : ((siblings_excluding s d0.parent_id i).enum.map
            (fun q => q.2.id)).Nodup := by
          rw [hids]
          exact hcsnodup
        rw [hdecomp, List.map_append, List.map_cons] at hnd2
        have hps2 : ∀ q ∈ ps2, q.2.id ≠ pr.2.id := by
          intro q hq hc
          have := (List.nodup_append.mp hnd2).2.1
          rw [List.nodup_cons] at this
          exact this.1 (hc ▸ List.mem_map.mpr ⟨q, hq, rfl⟩)
        have hprmem : pr.2 ∈ siblings_excluding s d0.parent_id i := by
          have : pr.2 ∈ (siblings_excluding s d0.parent_id i).enum.map Prod.snd :=
            List.mem_map_of_mem Prod.snd hpr
          rwa [List.enum_map_snd] at this
        obtain ⟨hsm, _, _, _⟩ := mem_siblings_excluding hprmem
        have hex : ∃ r ∈ (move_commit s d0 np nso).rows, r.id = pr.2.id := by
          have : pr.2.id ∈ (move_commit s d0 np nso).rows.map (·.id) := by
            rw [move_commit_ids]
            exact List.mem_map.mpr ⟨pr.2, hsm, rfl⟩
          rcases List.mem_map.mp this with ⟨w, hw, hwid⟩
          exact ⟨w, hw, hwid⟩
        rw [hsnd, reorder_siblings_eq_foldl, hcs, hdecomp]
        exact foldl_reorder_lookup_hit ps1 ps2 pr _ hps2 hex
      · intro r hr hri hrp
        have hsib : ∀ q ∈ (siblings_excluding s d0.parent_id i).enum,
            q.2.id ≠ r.id := by
          intro q hq hc
          have hqmem : q.2 ∈ siblings_excluding s d0.parent_id i := by
            have : q.2 ∈ (siblings_excluding s d0.parent_id i).enum.map Prod.snd :=
              List.mem_map_of_mem Prod.snd hq
            rwa [List.enum_map_snd] at this
          obtain ⟨hqs, hqp, _, _⟩ := mem_siblings_excluding hqmem
          have : q.2 = r := List.inj_on_of_nodup_map hnodup hqs hr hc
          rw [this] at hqp
          exact hne (hrp ▸ hqp.symm)
        rw [hsnd, reorder_siblings_eq_foldl, hcs]
        rw [foldl_reorder_lookup_other _ _ _ _ hsib]
        rw [move_commit_lookup_other (by rw [hid]; exact hri)]
        exact get_by_id_true_of_mem hnodup hr
    · intro hpp r hr hri
      have hbne : (d0.parent_id != np) = false := by simp [bne, hpp]
      have hsnd : (move_division s i np nso).2 = move_commit s d0 np nso := by
        rw [hmv]
        simp [hbne]
      rw [hsnd, move_commit_lookup_other (by rw [hid]; exact hri)]
      exact get_by_id_true_of_mem hnodup hr

theorem move_division_reorder_spec_witness :
    (c8C.parent_id ≠ some 1 →
      (∀ pr ∈ (siblings_excluding c8Store c8C.parent_id 4).enum,
        get_by_id (move_division c8Store 4 (some 1) none).2 pr.2.id true =
          some { pr.2 with sort_order := ((pr.1 : Int) + 1) * 10 }) ∧
      (∀ r ∈ c8Store.rows, r.id ≠ 4 → r.parent_id = some 1 →
        get_by_id (move_division c8Store 4 (some 1) none).2 r.id true = some r)) ∧
    (c8C.parent_id = some 1 →
      ∀ r ∈ c8Store.rows, r.id ≠ 4 →
        get_by_id (move_division c8Store 4 (some 1) none).2 r.id true = some r) :=
  move_division_reorder_spec c8Store 4 (some 1) none c8C rfl (by decide)
    { c8C with parent_id := some 1, sort_order := 20 } rfl

theorem get_subtree_zero (s : Store) (r : Int) : get_subtree s 0 r = none := by
  unfold get_subtree
  rfl

theorem get_subtree_succ (s : Store) (fuel : Nat) (r : Int) :
    get_subtree s (fuel + 1) r =
      match get_by_id s r with
      | none => some []
      | some d =>
        match subtree_children s fuel (get_children s (some r)) with
        | none => none
        | some rest => some (d :: rest) := by
  unfold get_subtree
  rfl

theorem subtree_children_nil (s : Store) (fuel : Nat) :
    subtree_children s fuel [] = some [] := by
  unfold subtree_children
  rfl

theorem subtree_children_cons (s : Store) (fuel : Nat) (c : Division)
    (cs : List Division) :
    subtree_children s fuel (c :: cs) =
      match get_subtree s fuel c.id with
      | none => none
      | some l =>
        match subtree_children s fuel cs with
        | none => none
        | some rest => some (l ++ rest) := by
  conv_lhs => unfold subtree_children

theorem up_steps_mono {s : Store} {f : Nat} {p : Option Int} {k : Nat}
    (h : up_steps s f p = some k) : up_steps s (f + 1) p = some k := by
  induction f generalizing p k with
  | zero =>
    cases p with
    | none => simpa [up_steps] using h
    | some c => simp [up_steps] at h
  | succ f ih =>
    cases p with
    | none => simpa [up_steps] using h
    | some c =>
      rw [up_steps] at h ⊢
      cases hl : get_by_id s c with
      | none =>
        rw [hl] at h
        simpa using h
      | some d =>
        rw [hl] at h
        dsimp only at h ⊢
        simp only [Option.map_eq_some'] at h ⊢
        obtain ⟨k', hk', hkk⟩ := h
        exact ⟨k', ih hk', hkk⟩

theorem up_steps_le {s : Store} {f f' : Nat} {p : Option Int} {k : Nat}
    (h : up_steps s f p = some k) (hf : f ≤ f') : up_steps s f' p = some k := by
  induction hf with
  | refl => exact h
  | step _ ih => exact up_steps_mono ih

theorem up_steps_bound {s : Store} {f : Nat} {p : Option Int} {k : Nat}
    (h : up_steps s f p = some k) : k ≤ f := by
  induction f generalizing p k with
  | zero =>
    cases p with
    | none => simpa [up_steps] using (by simpa [up_steps] using h : 0 = k).symm.le
    | some c => simp [up_steps] at h
  | succ f ih =>
    cases p with
    | none =>
      have : k = 0 := by simpa [up_steps] using h.symm
      omega
    | some c =>
      rw [up_steps] at h
      cases hl : get_by_id s c with
      | none =>
        rw [hl] at h
        have : k = 0 := by simpa using h.symm
        omega
      | some d =>
        rw [hl] at h
        dsimp only at h
        simp only [Option.map_eq_some'] at h
        obtain ⟨k', hk', hkk⟩ := h
        have := ih hk'
        omega

theorem get_by_id_false_of_mem {s : Store} {r : Division}
    (hnodup : (s.rows.map (·.id)).Nodup) (hmem : r ∈ s.rows)
    (hdel : r.is_deleted = false) :
    get_by_id s r.id = some r := by
  unfold get_by_id
  revert hnodup hmem
  generalize s.rows = rows
  intro hnodup hmem
  induction rows with
  | nil => simp at hmem
  | cons a as ih =>
    simp only [List.find?_cons]
    rcases List.mem_cons.mp hmem with h | h
    · subst h
      simp [hdel]
    · have hne : (a.id == r.id) = false := by
        simp only [List.map_cons, List.nodup_cons, List.mem_map] at hnodup
        simp only [beq_eq_false_iff_ne, ne_eq]
        intro hc
        exact hnodup.1 ⟨r, h, hc.symm⟩
      simp only [hne, Bool.false_and]
      exact ih (by simpa using (List.nodup_cons.mp (by simpa using hnodup)).2) h

theorem up_steps_child {s : Store} {c : Division} {f : Nat}
    (hnodup : (s.rows.map (·.id)).Nodup) (hc : c ∈ s.rows)
    (hcdel : c.is_deleted = false) :
    up_steps s (f + 1) (some c.id) = (up_steps s f c.parent_id).map (· + 1) := by
  rw [up_steps, get_by_id_false_of_mem hnodup hc hcdel]

theorem mem_get_children_false {s : Store} {p : Option Int} {c : Division} :
    c ∈ get_children s p ↔
      c ∈ s.rows ∧ c.parent_id = p ∧ c.is_deleted = false := by
  rw [mem_get_children]
  simp

theorem Desc_mem {s : Store} {r : Int} {x : Division} (h : Desc s r x) :
    x ∈ s.rows ∧ x.is_deleted = false := by
  induction h with
  | root d hd =>
    obtain ⟨hm, _, hb⟩ := get_by_id_eq_some hd
    exact ⟨hm, by simpa using hb⟩
  | child d c _ hc _ =>
    have := mem_get_children_false.mp hc
    exact ⟨this.1, this.2.2⟩

theorem Desc_trans {s : Store} {r : Int} {y z : Division}
    (hnodup : (s.rows.map (·.id)).Nodup)
    (hy : Desc s r y) (hz : Desc s y.id z) : Desc s r z := by
  induction hz with
  | root d hd =>
    have hym := Desc_mem hy
    rw [get_by_id_false_of_mem hnodup hym.1 hym.2] at hd
    rw [← Option.some_inj.mp hd]
    exact hy
  | child d c _ hc ih => exact Desc.child d c ih hc

theorem subtree_children_ne_none {s : Store} (fuel : Nat)
    (hT : ∀ r : Int, (∃ k, up_steps s (s.rows.length + 1) (some r) = some k ∧
        s.rows.length + 2 ≤ fuel + k) → get_subtree s fuel r ≠ none)
    (cs : List Division)
    (hcs : ∀ c ∈ cs, ∃ k, up_steps s (s.rows.length + 1) (some c.id) = some k ∧
        s.rows.length + 2 ≤ fuel + k) :
    subtree_children s fuel cs ≠ none := by
  induction cs with
  | nil =>
    rw [subtree_children_nil]
    simp
  | cons c cs ih =>
    rw [subtree_children_cons]
    cases hst : get_subtree s fuel c.id with
    | none => exact absurd hst (hT c.id (hcs c (List.mem_cons_self c cs)))
    | some l =>
      cases hrest : subtree_children s fuel cs with
      | none => exact absurd hrest (ih fun q hq => hcs q (List.mem_cons_of_mem c hq))
      | some rest => simp

theorem get_subtree_ne_none {s : Store}
    (hnodup : (s.rows.map (·.id)).Nodup)
    (hup : ∀ d ∈ s.rows, d.is_deleted = false →
      (up_steps s (s.rows.length + 1) (some d.id)).isSome)
    (fuel : Nat) (r : Int)
    (hk : ∃ k, up_steps s (s.rows.length + 1) (some r) = some k ∧
        s.rows.length + 2 ≤ fuel + k) :
    get_subtree s fuel r ≠ none := by
  induction fuel generalizing r with
  | zero =>
    obtain ⟨k, hks, hkb⟩ := hk
    have := up_steps_bound hks
    omega
  | succ fuel ih =>
    rw [get_subtree_succ]
    cases hfind : get_by_id s r with
    | none => simp
    | some d =>
      cases hrest : subtree_children s fuel (get_children s (some r)) with
      | none =>
        refine absurd hrest
          (subtree_children_ne_none fuel (fun r' hk' => ih r' hk') _ ?_)
        intro c hc
        obtain ⟨hcm, hcp, hcd⟩ := mem_get_children_false.mp hc
        obtain ⟨k, hks, hkb⟩ := hk
        have hcup := hup c hcm hcd
        obtain ⟨kc, hkc⟩ := Option.isSome_iff_exists.mp hcup
        have hstep2 : up_steps s (s.rows.length + 1 + 1) (some c.id) =
            some (k + 1) := by
          rw [up_steps_child hnodup hcm hcd, hcp, hks]
          rfl
        have hmono := up_steps_mono hkc
        rw [hstep2] at hmono
        have hkck : kc = k + 1 := (Option.some_inj.mp hmono).symm
        exact ⟨kc, hkc, by omega⟩
      | some rest => simp

theorem children_ok_of_subtree {s : Store}
    (hnodup : (s.rows.map (·.id)).Nodup) (fuel : Nat)
    (hS : ∀ r l, get_subtree s fuel r = some l → SubtreeOk s r l) :
    ∀ (R : Int) (cs l : List Division),
      (∀ c ∈ cs, c.parent_id = some R ∧ c ∈ s.rows ∧ c.is_deleted = false) →
      subtree_children s fuel cs = some l → ChildrenOk s R cs l := by
  intro R cs
  induction cs with
  | nil =>
    intro l _ h
    rw [subtree_children_nil] at h
    obtain rfl : ([] : List Division) = l := by simpa using h
    refine ⟨by simp, by simp, by simp, ?_⟩
    intro pre x post hsplit
    exact absurd hsplit.symm (by simp)
  | cons c cs ih =>
    intro l hcs h
    rw [subtree_children_cons] at h
    cases hst : get_subtree s fuel c.id with
    | none =>
      rw [hst] at h
      exact absurd h (by simp)
    | some lc =>
      rw [hst] at h
      cases hrest : subtree_children s fuel cs with
      | none =>
        rw [hrest] at h
        exact absurd h (by simp)
      | some rest =>
        rw [hrest] at h
        obtain rfl : lc ++ rest = l := by simpa using h
        obtain ⟨hcP, hcM, hcD⟩ := hcs c (List.mem_cons_self c cs)
        have hSc := hS c.id lc hst
        have hih := ih rest (fun q hq => hcs q (List.mem_cons_of_mem c hq)) hrest
        have hlc : get_by_id s c.id = some c :=
          get_by_id_false_of_mem hnodup hcM hcD
        refine ⟨?_, ?_, ?_, ?_⟩
        · intro x hx
          rcases List.mem_append.mp hx with hx | hx
          · exact ⟨c, List.mem_cons_self c cs, hSc.2.2.1 x hx⟩
          · obtain ⟨c', hc', hd'⟩ := hih.1 x hx
            exact ⟨c', List.mem_cons_of_mem c hc', hd'⟩
        · intro c' hc'
          rcases List.mem_cons.mp hc' with hc' | hc'
          · subst hc'
            exact List.mem_append_left rest (hSc.2.2.2.1 c' hlc)
          · exact List.mem_append_right lc (hih.2.1 c' hc')
        · intro y hy cc hcc
          rcases List.mem_append.mp hy with hy | hy
          · exact List.mem_append_left rest (hSc.2.2.2.2.1 y hy cc hcc)
          · exact List.mem_append_right lc (hih.2.2.1 y hy cc hcc)
        · intro pre x post hsplit
          rcases List.append_eq_append_iff.mp hsplit with ⟨a', ha1, ha2⟩ | ⟨c', hc1, hc2⟩
          · rcases hih.2.2.2 a' x post ha2 with hxr | ⟨p, hp, hpp⟩
            · exact Or.inl hxr
            · exact Or.inr ⟨p, ha1 ▸ List.mem_append_right lc hp, hpp⟩
          · cases c' with
            | nil =>
              simp only [List.append_nil] at hc1
              rcases hih.2.2.2 [] x post (by simpa using hc2.symm) with hxr | ⟨p, hp, _⟩
              · exact Or.inl hxr
              · exact absurd hp (by simp)
            | cons a0 c1 =>
              obtain ⟨rfl, hpost⟩ : a0 = x ∧ x :: post = a0 :: (c1 ++ rest) := by
                constructor
                · have := hc2
                  simp only [List.cons_append] at this
                  exact (List.cons.injEq _ _ _ _ ▸ this).1.symm
                · rw [hc2]
                  simp
              rcases hSc.2.2.2.2.2 pre a0 c1 hc1 with hpre | ⟨p, hp, hpp⟩
              · subst hpre
                have hhead : lc.head? = some c := hSc.1 c hlc
                have : lc = a0 :: c1 := by simpa using hc1
                rw [this] at hhead
                simp only [List.head?_cons, Option.some_inj] at hhead
                subst hhead
                exact Or.inl hcP
              · exact Or.inr ⟨p, hp, hpp⟩

theorem subtree_ok_succ {s : Store}
    (hnodup : (s.rows.map (·.id)).Nodup) (fuel : Nat)
    (hC : ∀ (R : Int) (cs l : List Division),
      (∀ c ∈ cs, c.parent_id = some R ∧ c ∈ s.rows ∧ c.is_deleted = false) →
      subtree_children s fuel cs = some l → ChildrenOk s R cs l) :
    ∀ r l, get_subtree s (fuel + 1) r = some l → SubtreeOk s r l := by
  intro r l h
  rw [get_subtree_succ] at h
  cases hfind : get_by_id s r with
  | none =>
    rw [hfind] at h
    obtain rfl : ([] : List Division) = l := by simpa using h
    refine ⟨?_, fun _ => rfl, by simp, ?_, by simp, ?_⟩
    · intro d hd
      rw [hfind] at hd
      exact absurd hd (by simp)
    · intro d hd
      rw [hfind] at hd
      exact absurd hd (by simp)
    · intro pre c post hsplit
      exact absurd hsplit.symm (by simp)
  | some d =>
    rw [hfind] at h
    cases hrest : subtree_children s fuel (get_children s (some r)) with
    | none =>
      rw [hrest] at h
      exact absurd h (by simp)
    | some rest =>
      rw [hrest] at h
      obtain rfl : d :: rest = l := by simpa using h
      have hdid : d.id = r := (get_by_id_eq_some hfind).2.1
      have hcs : ∀ c ∈ get_children s (some r),
          c.parent_id = some r ∧ c ∈ s.rows ∧ c.is_deleted = false := by
        intro c hc
        obtain ⟨h1, h2, h3⟩ := mem_get_children_false.mp hc
        exact ⟨h2, h1, h3⟩
      have hCo := hC r _ rest hcs hrest
      have hdescChild : ∀ c ∈ get_children s (some r), Desc s r c := by
        intro c hc
        refine Desc.child d c (Desc.root d hfind) ?_
        rw [hdid]
        exact hc
      refine ⟨?_, ?_, ?_, ?_, ?_, ?_⟩
      · intro d' hd'
        rw [hfind] at hd'
        obtain rfl := Option.some_inj.mp hd'
        rfl
      · intro hnone
        rw [hfind] at hnone
        exact absurd hnone (by simp)
      · intro x hx
        rcases List.mem_cons.mp hx with hx | hx
        · subst hx
          exact Desc.root x hfind
        · obtain ⟨c, hc, hd'⟩ := hCo.1 x hx
          exact Desc_trans hnodup (hdescChild c hc) hd'
      · intro d' hd'
        rw [hfind] at hd'
        obtain rfl := Option.some_inj.mp hd'
        exact List.mem_cons_self d rest
      · intro y hy cc hcc
        rcases List.mem_cons.mp hy with hy | hy
        · subst hy
          rw [hdid] at hcc
          exact List.mem_cons_of_mem y (hCo.2.1 cc hcc)
        · exact List.mem_cons_of_mem d (hCo.2.2.1 y hy cc hcc)
      · intro pre c post hsplit
        cases pre with
        | nil => exact Or.inl rfl
        | cons p0 pre' =>
          simp only [List.cons_append, List.cons.injEq] at hsplit
          obtain ⟨rfl, hrest'⟩ := hsplit
          rcases hCo.2.2.2 pre' c post hrest' with hcr | ⟨p, hp, hpp⟩
          · refine Or.inr ⟨d, List.mem_cons_self d pre', ?_⟩
            rw [hcr, hdid]
          · exact Or.inr ⟨p, List.mem_cons_of_mem d hp, hpp⟩

theorem subtree_ok {s : Store} (hnodup : (s.rows.map (·.id)).Nodup) :
    ∀ (fuel : Nat) (r : Int) (l : List Division),
      get_subtree s fuel r = some l → SubtreeOk s r l := by
  intro fuel
  induction fuel with
  | zero =>
    intro r l h
    rw [get_subtree_zero] at h
    exact absurd h (by simp)
  | succ fuel ih =>
    exact subtree_ok_succ hnodup fuel (children_ok_of_subtree hnodup fuel ih)

theorem subtree_complete {s : Store} (hnodup : (s.rows.map (·.id)).Nodup)
    {fuel : Nat} {r : Int} {l : List Division}
    (h : get_subtree s fuel r = some l) {x : Division} (hx : Desc s r x) :
    x ∈ l := by
  have hok := subtree_ok hnodup fuel r l h
  induction hx with
  | root d hd => exact hok.2.2.2.1 d hd
  | child d c _ hc ih => exact hok.2.2.2.2.1 d ih c hc

/-- C6 (amended): in a store with acyclic parent chains (every up-walk
terminates within the node count), `getHierarchyTree(rootId)` for a nonzero
`rootId` resolving to the non-deleted division `X` returns a sequence headed
by `X` whose members are exactly `X` and its descendants, with every element's
parent appearing strictly earlier (depth-first pre-order); for a nonzero
`rootId` that does not resolve it returns the empty sequence.  (`rootId = 0`
instead returns the top-level listing, per the counterexample.) -/
theorem hierarchy_tree_rooted_spec :
    (∀ (s : Store) (r : Int) (X : Division),
      (s.rows.map (·.id)).Nodup →
      (∀ d ∈ s.rows, d.is_deleted = false →
        (up_steps s (s.rows.length + 1) (some d.id)).isSome = true) →
      r ≠ 0 → get_by_id s r = some X →
      ∃ l, get_hierarchy_tree s (some r) = some l ∧
        l.head? = some X ∧
        (∀ x, x ∈ l ↔ Desc s r x) ∧
        (∀ pre c post, l = pre ++ c :: post →
          pre = [] ∨ ∃ p ∈ pre, c.parent_id = some p.id)) ∧
    (∀ (s : Store) (r : Int), r ≠ 0 → get_by_id s r = none →
      get_hierarchy_tree s (some r) = some []) := by
  constructor
  · intro s r X hnodup hup hr0 hfind
    have hbeq : (r == 0) = false := by simpa using hr0
    have hne : get_subtree s (s.rows.length + 1) r ≠ none := by
      apply get_subtree_ne_none hnodup hup
      obtain ⟨hXm, hXid, hXb⟩ := get_by_id_eq_some hfind
      have hXdel : X.is_deleted = false := by simpa using hXb
      obtain ⟨k, hk⟩ := Option.isSome_iff_exists.mp (hup X hXm hXdel)
      rw [hXid] at hk
      refine ⟨k, hk, ?_⟩
      have h1 : 1 ≤ k := by
        rw [up_steps, hfind] at hk
        simp only [Option.map_eq_some'] at hk
        obtain ⟨k', _, hkk⟩ := hk
        omega
      omega
    cases hst : get_subtree s (s.rows.length + 1) r with
    | none => exact absurd hst hne
    | some l =>
      have hok := subtree_ok hnodup _ r l hst
      refine ⟨l, ?_, hok.1 X hfind, ?_, hok.2.2.2.2.2⟩
      · rw [get_hierarchy_tree]
        simp [hbeq, hst]
      · intro x
        exact ⟨fun hx => hok.2.2.1 x hx, fun hx => subtree_complete hnodup hst hx⟩
  · intro s r hr0 hnone
    have hbeq : (r == 0) = false := by simpa using hr0
    rw [get_hierarchy_tree]
    simp only [hbeq, Bool.false_eq_true, if_false]
    rw [get_subtree_succ, hnone]

theorem hierarchy_tree_rooted_spec_witness :
    (∃ l, get_hierarchy_tree c6WStore (some 1) = some l ∧
      l.head? = some c6WR ∧
      (∀ x, x ∈ l ↔ Desc c6WStore 1 x) ∧
      (∀ pre c post, l = pre ++ c :: post →
        pre = [] ∨ ∃ p ∈ pre, c.parent_id = some p.id)) ∧
    get_hierarchy_tree c6WStore (some 9) = some [] :=
  ⟨hierarchy_tree_rooted_spec.1 c6WStore 1 c6WR (by decide) (by decide)
      (by decide) rfl,
   hierarchy_tree_rooted_spec.2 c6WStore 9 (by decide) rfl⟩

end AxiomNext
